import Mathlib

/-!
Verification development for the kuato session-recall pipeline.

The TypeScript sources are shallowly embedded:

* `src/shared/parser.ts` — `parseSessionContent` (Claude Code JSONL variant),
  `extractFromContentBlock`, `extractFilePaths`, `parseOpenCodeSession`,
  `parseSessionFile`;
* `src/shared/types.ts` — the record shapes (`ParsedSession`, `SearchResult`,
  `SearchOptions`, the OpenCode export shape);
* the file-based search script — `scoreRelevance`, `matchesFilters`,
  `searchSessions`.

Modelling conventions:

* JavaScript strings are Lean `String`s; `s.toLowerCase()` is a `Char.toLower`
  map over `s.data`; `hay.includes(needle)` is the executable substring test
  `subSeg`.
* `Date` values are modelled by their epoch-millisecond value (`Int`);
  `Date.now()` becomes an explicit `now : Int` parameter.
* A JavaScript value of unknown shape (tool-call `input` objects, content
  blocks) is a `JVal`.  Truthiness tests mirror JavaScript (`jTruthy`,
  and `Option String` fields where absent and empty string are both falsy).
* `JSON.parse` belongs to the runtime, not the repository, so the JSONL
  parser consumes the per-line parse outcomes (`LineResult`): `malformed`
  for a line whose `JSON.parse` throws, `event e` for a parsed object.
  Likewise the whole-text parse outcome for the structured-export branch is
  an input of `parseSessionFile`.
* A JavaScript `Set<string>` is an insertion-ordered duplicate-free list
  (`addSet`); a `Record<string, ...>` is an insertion-ordered association
  list.
* Property access on `null`/`undefined` throws in JavaScript; the second
  pass of `parseSessionContent` performs such accesses unguarded, so the
  embedding returns `Except Unit` with `.error ()` modelling the thrown
  `TypeError`.
-/

/-- JavaScript falsy-or test for an optional string: `a || b`. -/
def jsOr (a : Option String) (b : String) : String :=
  match a with
  | some s => if s = "" then b else s
  | none => b

/-- JavaScript `String.prototype.trim`. -/
def jsTrim (s : String) : String :=
  ⟨((s.data.dropWhile Char.isWhitespace).reverse.dropWhile Char.isWhitespace).reverse⟩

/-- Lower-cased character list of a string: `s.toLowerCase()`. -/
def lower (s : String) : List Char :=
  s.data.map Char.toLower

/-- Test that `needle` is a leading segment of `hay`. -/
def hasPre (needle hay : List Char) : Bool :=
  match needle, hay with
  | [], _ => true
  | _ :: _, [] => false
  | a :: t₁, b :: t₂ => a == b && hasPre t₁ t₂

/-- JavaScript `hay.includes(needle)`: `needle` occurs contiguously in `hay`. -/
def subSeg (hay needle : List Char) : Bool :=
  match hay with
  | [] => needle.isEmpty
  | _ :: t => hasPre needle hay || subSeg t needle

/-- Whitespace split, `query.split(/\s+/).filter(Boolean)`: maximal
non-whitespace runs. `cur` is the current run, reversed. -/
def wordsAux (cs : List Char) (cur : List Char) : List (List Char) :=
  match cs with
  | [] => if cur.isEmpty then [] else [cur.reverse]
  | c :: rest =>
      if c.isWhitespace then
        if cur.isEmpty then wordsAux rest [] else cur.reverse :: wordsAux rest []
      else wordsAux rest (c :: cur)

/-- Split a character list into whitespace-separated terms, empties dropped. -/
def splitWs (cs : List Char) : List (List Char) :=
  wordsAux cs []

/-- JavaScript `Set.add`: append if not already present (insertion order). -/
def addSet (l : List String) (s : String) : List String :=
  if s ∈ l then l else l ++ [s]

mutual
/-- Model of a parsed JSON value (output of the runtime `JSON.parse`).
A mutual family (rather than a nested inductive) so that the recursive walk
of tool inputs is structural and computes definitionally. -/
inductive JVal where
  | null
  | bool (b : Bool)
  | num (n : Int)
  | str (s : String)
  | arr (elts : JArr)
  | obj (fields : JObj)

/-- Elements of a JSON array. -/
inductive JArr where
  | nil
  | cons (v : JVal) (rest : JArr)

/-- Fields of a JSON object (keys are unique after `JSON.parse`). -/
inductive JObj where
  | nil
  | cons (k : String) (v : JVal) (rest : JObj)
end

/-- Build a JSON array value from a list. -/
def jarr (l : List JVal) : JArr :=
  l.foldr JArr.cons JArr.nil

/-- Build a JSON object value from a key-value list. -/
def jobj (l : List (String × JVal)) : JObj :=
  l.foldr (fun kv o => JObj.cons kv.fst kv.snd o) JObj.nil

/-- JavaScript truthiness of a parsed JSON value. -/
def jTruthy (v : JVal) : Bool :=
  match v with
  | .null => false
  | .bool b => b
  | .num n => n != 0
  | .str s => s ≠ ""
  | .arr _ => true
  | .obj _ => true

/-- Field access on a parsed JSON object. -/
def lookupField (fields : JObj) (k : String) : Option JVal :=
  match fields with
  | .nil => none
  | .cons k' v rest => if k' = k then some v else lookupField rest k

/-- Whitelisted parameter names that denote file paths (parser.ts line 208). -/
def pathKeys : List String :=
  ["file_path", "path", "file", "filename", "filePath"]

/-- String contains a path separator: `value.includes('/') || value.includes('\\')`. -/
def hasSep (s : String) : Bool :=
  s.data.contains '/' || s.data.contains '\\'

mutual
/-- Embeds `extractFilePaths` (parser.ts lines 201-222): walk the entries of a
tool-call input, collect whitelisted string values containing a separator, and
recurse into nested plain objects (not into arrays).  When called on an array
(possible only at the top), `Object.entries` walks the elements under numeric
keys, none of which is whitelisted, so only object elements are recursed into. -/
def extractFilePaths : JVal → List String
  | .obj fields => extractFromFields fields
  | .arr elts => extractFromElts elts
  | _ => []

/-- Entry walk of `extractFilePaths` over the fields of an object. -/
def extractFromFields : JObj → List String
  | .nil => []
  | .cons k v rest =>
      (match v with
       | .str s => if k ∈ pathKeys ∧ hasSep s then [s] else []
       | _ => []) ++
      (match v with
       | .obj _ => extractFilePaths v
       | _ => []) ++
      extractFromFields rest

/-- Element walk of `extractFilePaths` when `Object.entries` is applied to an
array: values sit under numeric keys (never whitelisted), and only plain
objects are recursed into. -/
def extractFromElts : JArr → List String
  | .nil => []
  | .cons v rest =>
      (match v with
       | .obj _ => extractFilePaths v
       | _ => []) ++
      extractFromElts rest
end

/-- Token usage record carried on an assistant event (`types.ts` `TokenUsage`);
`none` models an absent counter, read back as `usage.x || 0`. -/
structure Usage where
  input_tokens : Option Nat
  output_tokens : Option Nat
  cache_creation_input_tokens : Option Nat
  cache_read_input_tokens : Option Nat

/-- Fields of a `message` payload that the parser reads.  The same `content`
key holds a string for user events and an array of content blocks for
assistant events, so it is kept as a raw `JVal`.  A payload that is a JSON
primitive is modelled with all fields absent (property access on a primitive
yields `undefined`, not a throw).  Per `types.ts` the `model` field, when
present, is a string. -/
structure MsgPayload where
  content : Option JVal
  model : Option String
  usage : Option Usage

/-- One parsed JSONL event as read by `parseSessionContent`.  `message = none`
models both an absent `message` key and `message: null`: any property access
on it throws.  `timestamp` is the epoch-millisecond value of
`new Date(event.timestamp)`. -/
structure SessionEvent where
  type : String
  message : Option MsgPayload
  sessionId : Option String
  timestamp : Int
  gitBranch : Option String
  cwd : Option String
  version : Option String

/-- Outcome of `JSON.parse` on one line of a JSONL transcript. -/
inductive LineResult where
  | malformed
  | event (e : SessionEvent)

/-- The conversational events retained by the first loop of
`parseSessionContent` (lines 61-72): lines that parse and whose declared type
is `user` or `assistant`. -/
def retainedEvents (lines : List LineResult) : List SessionEvent :=
  lines.filterMap fun l =>
    match l with
    | .malformed => none
    | .event e => if e.type = "user" ∨ e.type = "assistant" then some e else none

/-- Per-model token counters (`types.ts` `modelTokens` bucket). -/
structure Bucket where
  input : Nat
  output : Nat
  cacheCreation : Nat
  cacheRead : Nat
deriving DecidableEq

/-- The zero bucket created lazily on first encounter of a model. -/
def Bucket.zero : Bucket :=
  ⟨0, 0, 0, 0⟩

/-- Normalized session record (`types.ts` `ParsedSession`). -/
structure ParsedSession where
  id : String
  startedAt : Int
  endedAt : Int
  gitBranch : String
  cwd : String
  version : String
  messageCount : Nat
  inputTokens : Nat
  outputTokens : Nat
  cacheCreationTokens : Nat
  cacheReadTokens : Nat
  userMessages : List String
  toolsUsed : List String
  filesFromToolCalls : List String
  modelsUsed : List String
  modelTokens : List (String × Bucket)
  title : Option String
  sessionType : String
deriving DecidableEq

/-- Accumulator of the second loop of `parseSessionContent` (lines 83-96). -/
structure PAcc where
  userMessages : List String
  toolsUsed : List String
  filesFromToolCalls : List String
  modelsUsed : List String
  inputTokens : Nat
  outputTokens : Nat
  cacheCreationTokens : Nat
  cacheReadTokens : Nat
  modelTokens : List (String × Bucket)

/-- Initial (empty) accumulator. -/
def initAcc : PAcc :=
  ⟨[], [], [], [], 0, 0, 0, 0, []⟩

/-- Lookup `modelTokens[model]` (an existing bucket object is always truthy). -/
def findBucket (mt : List (String × Bucket)) (m : String) : Option Bucket :=
  match mt with
  | [] => none
  | (k, b) :: rest => if k = m then some b else findBucket rest m

/-- Lazy bucket creation (parser.ts lines 113-120). -/
def ensureBucket (mt : List (String × Bucket)) (m : String) : List (String × Bucket) :=
  if (findBucket mt m).isSome then mt else mt ++ [(m, Bucket.zero)]

/-- Add a usage record to one bucket (parser.ts lines 133-138). -/
def bucketAdd (b : Bucket) (u : Usage) : Bucket :=
  { input := b.input + u.input_tokens.getD 0
    output := b.output + u.output_tokens.getD 0
    cacheCreation := b.cacheCreation + u.cache_creation_input_tokens.getD 0
    cacheRead := b.cacheRead + u.cache_read_input_tokens.getD 0 }

/-- Update the bucket stored under key `m` (keys are unique by construction). -/
def updBuckets (mt : List (String × Bucket)) (m : String) (u : Usage) : List (String × Bucket) :=
  match mt with
  | [] => []
  | (k, b) :: rest => if k = m then (k, bucketAdd b u) :: rest else (k, b) :: updBuckets rest m u

/-- User branch of the second loop (parser.ts lines 99-104): a string content
with non-empty trim is pushed verbatim. -/
def stepUser (acc : PAcc) (p : MsgPayload) : PAcc :=
  match p.content with
  | some (.str s) =>
      if jsTrim s ≠ "" then { acc with userMessages := acc.userMessages ++ [s] } else acc
  | _ => acc

/-- Model registration (parser.ts lines 109-121): a truthy model is added to
`modelsUsed` and its token bucket is created if missing. -/
def registerModel (acc : PAcc) (p : MsgPayload) : PAcc :=
  match p.model with
  | some m =>
      if m = "" then acc
      else { acc with
              modelsUsed := addSet acc.modelsUsed m
              modelTokens := ensureBucket acc.modelTokens m }
  | none => acc

/-- Running-total accumulation (parser.ts lines 126-129). -/
def addUsageTotals (acc : PAcc) (u : Usage) : PAcc :=
  { acc with
      inputTokens := acc.inputTokens + u.input_tokens.getD 0
      outputTokens := acc.outputTokens + u.output_tokens.getD 0
      cacheCreationTokens := acc.cacheCreationTokens + u.cache_creation_input_tokens.getD 0
      cacheReadTokens := acc.cacheReadTokens + u.cache_read_input_tokens.getD 0 }

/-- Per-model accumulation (parser.ts lines 132-139), guarded by
`assistantMsg.model && modelTokens[assistantMsg.model]`. -/
def addUsagePerModel (acc : PAcc) (p : MsgPayload) (u : Usage) : PAcc :=
  match p.model with
  | some m =>
      if m = "" then acc
      else if (findBucket acc.modelTokens m).isSome then
        { acc with modelTokens := updBuckets acc.modelTokens m u }
      else acc
  | none => acc

/-- Embeds `extractFromContentBlock` (parser.ts lines 183-196) for one content
block.  A `null` block throws on the `block.type` access.  Tool names outside
the declared `string` type are not modelled. -/
def stepBlock (acc : PAcc) (b : JVal) : Except Unit PAcc :=
  match b with
  | .null => .error ()
  | .obj fields =>
      .ok
        (match lookupField fields "type" with
         | some (.str t) =>
             if t = "tool_use" then
               match lookupField fields "name" with
               | some (.str s) =>
                   if s = "" then acc
                   else
                     let acc1 := { acc with toolsUsed := addSet acc.toolsUsed s }
                     match lookupField fields "input" with
                     | some v =>
                         if jTruthy v then
                           { acc1 with
                              filesFromToolCalls :=
                                (extractFilePaths v).foldl addSet acc1.filesFromToolCalls }
                         else acc1
                     | none => acc1
               | _ => acc
             else acc
         | _ => acc)
  | _ => .ok acc

/-- Iteration of `extractFromContentBlock` over the blocks of an assistant
content array (parser.ts lines 144-146). -/
def foldBlocks (acc : PAcc) (blocks : JArr) : Except Unit PAcc :=
  match blocks with
  | .nil => .ok acc
  | .cons b rest => do
      let acc1 ← stepBlock acc b
      foldBlocks acc1 rest

/-- Content-block walk of an assistant event (parser.ts lines 143-147),
entered only when the content is an array. -/
def stepBlocks (acc : PAcc) (p : MsgPayload) : Except Unit PAcc :=
  match p.content with
  | some (.arr blocks) => foldBlocks acc blocks
  | _ => .ok acc

/-- Assistant branch of the second loop (parser.ts lines 105-148): model
registration, then usage accumulation, then the content-block walk. -/
def stepAssistant (acc : PAcc) (p : MsgPayload) : Except Unit PAcc :=
  stepBlocks
    (match p.usage with
     | some u => addUsagePerModel (addUsageTotals (registerModel acc p) u) p u
     | none => registerModel acc p)
    p

/-- One iteration of the second loop of `parseSessionContent` (lines 98-149);
accessing the message payload of a retained event throws when it is
null/undefined. -/
def step (acc : PAcc) (e : SessionEvent) : Except Unit PAcc :=
  if e.type = "user" then
    match e.message with
    | some p => .ok (stepUser acc p)
    | none => .error ()
  else if e.type = "assistant" then
    match e.message with
    | some p => stepAssistant acc p
    | none => .error ()
  else .ok acc

/-- Assembly of the returned session object (parser.ts lines 151-177);
`pathId` is the outcome of the UUID regex match against the file path. -/
def buildSession (m0 : SessionEvent) (ms : List SessionEvent) (acc : PAcc)
    (pathId : Option String) : ParsedSession :=
  { id := jsOr pathId (jsOr m0.sessionId "unknown")
    startedAt := m0.timestamp
    endedAt := (ms.getLastD m0).timestamp
    gitBranch := jsOr m0.gitBranch "unknown"
    cwd := jsOr m0.cwd ""
    version := jsOr m0.version ""
    messageCount := (m0 :: ms).length
    inputTokens := acc.inputTokens
    outputTokens := acc.outputTokens
    cacheCreationTokens := acc.cacheCreationTokens
    cacheReadTokens := acc.cacheReadTokens
    userMessages := acc.userMessages
    toolsUsed := acc.toolsUsed
    filesFromToolCalls := acc.filesFromToolCalls
    modelsUsed := acc.modelsUsed
    modelTokens := acc.modelTokens
    title := none
    sessionType := "claude-code" }

/-- Processing of the retained conversational events: the empty-retained check
(lines 74-76) followed by the accumulator loop and assembly. -/
def parseCore (ms : List SessionEvent) (pathId : Option String) :
    Except Unit (Option ParsedSession) :=
  match ms with
  | [] => .ok none
  | m0 :: rest => do
      let acc ← (m0 :: rest).foldlM step initAcc
      pure (some (buildSession m0 rest acc pathId))

/-- Embeds `parseSessionContent` (parser.ts lines 49-178) over the per-line
`JSON.parse` outcomes of `content.trim().split('\n').filter(Boolean)`. -/
def parseSessionContent (lines : List LineResult) (pathId : Option String) :
    Except Unit (Option ParsedSession) :=
  if lines.isEmpty then .ok none
  else parseCore (retainedEvents lines) pathId

/-- OpenCode export: session-level metadata (`types.ts` `OpenCodeSession.info`).
`title` is optional to model exports that omit it (read back with a falsy-or
default). -/
structure OCInfo where
  id : String
  directory : String
  title : Option String
  created : Int
  updated : Int

/-- OpenCode export: model reference on a message envelope. -/
structure OCModel where
  providerID : String
  modelID : String

/-- OpenCode export: the envelope metadata the extractor reads. -/
structure OCMsgInfo where
  role : String
  model : Option OCModel

/-- OpenCode export: one message part. -/
structure OCPart where
  type : String
  text : Option String

/-- OpenCode export: the fixed parameter keys checked on a tool call
(parser.ts lines 268-270); typed `any` upstream, modelled as the path-like
string parameters the extractor reads. -/
structure OCParams where
  filePath : Option String
  path : Option String
  file : Option String

/-- OpenCode export: one tool-call record. -/
structure OCToolCall where
  name : String
  parameters : Option OCParams

/-- OpenCode export: one message envelope. -/
structure OCMessage where
  info : OCMsgInfo
  parts : Option (List OCPart)
  toolCalls : Option (List OCToolCall)

/-- OpenCode export: a whole session export (`types.ts` `OpenCodeSession`). -/
structure OCSession where
  info : OCInfo
  messages : List OCMessage

/-- Accumulator of `parseOpenCodeSession`'s message walk. -/
structure OCAcc where
  userMessages : List String
  toolsUsed : List String
  filesFromToolCalls : List String
  modelsUsed : List String

/-- Conditional add of a truthy string parameter to the file set
(`if (params.x) filesFromToolCalls.add(params.x)`). -/
def addParam (files : List String) (v : Option String) : List String :=
  match v with
  | some s => if s = "" then files else addSet files s
  | none => files

/-- One message envelope of `parseOpenCodeSession` (parser.ts lines 250-279):
user text parts, tool names, the three checked parameter keys, and the model. -/
def ocStep (acc : OCAcc) (message : OCMessage) : OCAcc :=
  let acc :=
    if message.info.role = "user" then
      match message.parts with
      | some parts =>
          { acc with
             userMessages :=
               parts.foldl
                 (fun ums part =>
                   match part.text with
                   | some t => if part.type = "text" ∧ t ≠ "" then ums ++ [t] else ums
                   | none => ums)
                 acc.userMessages }
      | none => acc
    else acc
  let acc :=
    match message.toolCalls with
    | some tcs =>
        tcs.foldl
          (fun acc tc =>
            let acc := { acc with toolsUsed := addSet acc.toolsUsed tc.name }
            match tc.parameters with
            | some ps =>
                { acc with
                   filesFromToolCalls :=
                     addParam (addParam (addParam acc.filesFromToolCalls ps.filePath)
                       ps.path) ps.file }
            | none => acc)
          acc
    | none => acc
  match message.info.model with
  | some m => { acc with modelsUsed := addSet acc.modelsUsed m.modelID }
  | none => acc

/-- Embeds `parseOpenCodeSession` (parser.ts lines 243-302). -/
def parseOpenCodeSession (session : OCSession) : ParsedSession :=
  let acc := session.messages.foldl ocStep ⟨[], [], [], []⟩
  { id := session.info.id
    startedAt := session.info.created
    endedAt := session.info.updated
    gitBranch := ""
    cwd := session.info.directory
    version := ""
    messageCount := session.messages.length
    inputTokens := 0
    outputTokens := 0
    cacheCreationTokens := 0
    cacheReadTokens := 0
    userMessages := acc.userMessages
    toolsUsed := acc.toolsUsed
    filesFromToolCalls := acc.filesFromToolCalls
    modelsUsed := acc.modelsUsed
    modelTokens := []
    title := some (jsOr session.info.title "Untitled Session")
    sessionType := "opencode" }

/-- Raw input of `parseSessionFile`: the file text together with the
runtime-parse outcomes it induces.  `wholeParse` is the outcome of the
structured-export `try` block body (`none` when `JSON.parse(trimmed)` throws
or the subsequent field accesses throw); `lineResults` are the per-line
parse outcomes of `content.trim().split('\n').filter(Boolean)`; `pathId` is
the outcome of the UUID regex match against the file path. -/
structure RawInput where
  content : String
  wholeParse : Option OCSession
  lineResults : List LineResult
  pathId : Option String

/-- Embeds the format detection of `parseSessionFile` (parser.ts lines 26-44):
the structured branch is attempted when the trimmed text starts with a brace
and mentions both quoted keys; on failure it falls through to JSONL parsing. -/
def parseSessionFile (inp : RawInput) : Except Unit (Option ParsedSession) :=
  let trimmed := (jsTrim inp.content).data
  if hasPre "\x7b".data trimmed ∧ subSeg trimmed "\"info\"".data ∧
      subSeg trimmed "\"messages\"".data then
    match inp.wholeParse with
    | some session => .ok (some (parseOpenCodeSession session))
    | none => parseSessionContent inp.lineResults inp.pathId
  else parseSessionContent inp.lineResults inp.pathId

/-- Search options (`types.ts` `SearchOptions`); `Date` bounds in epoch ms
(`untilDate` renders the `until` option, whose name is reserved in Lean). -/
structure SearchOptions where
  query : Option String
  days : Option Nat
  since : Option Int
  untilDate : Option Int
  tools : Option (List String)
  filePattern : Option String
  limit : Option Nat

/-- Search result: a parsed session plus its computed relevance
(`types.ts` `SearchResult`, spread construction at search line 183). -/
structure SearchResult extends ParsedSession where
  relevance : Nat
deriving DecidableEq

/-- Embeds `scoreRelevance` (search script lines 62-118): weighted
case-insensitive substring matching of whitespace-split query terms. -/
def scoreRelevance (session : ParsedSession) (query : String) : Nat :=
  if query = "" then 1
  else
    let queryTerms := splitWs (lower query)
    let score := 0
    let score :=
      match session.title with
      | some title =>
          if title ≠ "" then
            queryTerms.foldl
              (fun sc term => if subSeg (lower title) term then sc + 15 else sc) score
          else score
      | none => score
    let score :=
      session.userMessages.foldl
        (fun sc msg =>
          queryTerms.foldl
            (fun sc2 term => if subSeg (lower msg) term then sc2 + 10 else sc2) sc)
        score
    let score :=
      queryTerms.foldl
        (fun sc term => if subSeg (lower session.cwd) term then sc + 5 else sc) score
    let score :=
      session.toolsUsed.foldl
        (fun sc tool =>
          queryTerms.foldl
            (fun sc2 term => if subSeg (lower tool) term then sc2 + 3 else sc2) sc)
        score
    let score :=
      session.filesFromToolCalls.foldl
        (fun sc file =>
          queryTerms.foldl
            (fun sc2 term => if subSeg (lower file) term then sc2 + 3 else sc2) sc)
        score
    score

/-- Embeds `matchesFilters` (search script lines 123-150); `now` is
`Date.now()`.  A `days` value of `0` is falsy and skips the cutoff check. -/
def matchesFilters (session : ParsedSession) (options : SearchOptions) (now : Int) : Bool :=
  (match options.since with
   | some t => !decide (session.endedAt < t)
   | none => true) &&
  (match options.untilDate with
   | some t => !decide (session.endedAt > t)
   | none => true) &&
  (match options.days with
   | some d =>
       if d = 0 then true
       else !decide (session.endedAt < now - (d : Int) * 24 * 60 * 60 * 1000)
   | none => true) &&
  (match options.tools with
   | some ts =>
       if ts = [] then true
       else ts.any fun tool =>
         session.toolsUsed.any fun t => subSeg (lower t) (lower tool)
   | none => true) &&
  (match options.filePattern with
   | some p =>
       if p = "" then true
       else session.filesFromToolCalls.any fun f => subSeg (lower f) (lower p)
   | none => true)

/-- Truthiness of `options.query`. -/
def queryTruthy (q : Option String) : Bool :=
  match q with
  | some s => s ≠ ""
  | none => false

/-- Relevance assignment (search line 178): score when a truthy query is
present, `1` otherwise. -/
def relevanceOf (options : SearchOptions) (session : ParsedSession) : Nat :=
  match options.query with
  | some q => if q = "" then 1 else scoreRelevance session q
  | none => 1

/-- Per-session body of the `searchSessions` loop (search lines 162-187):
failed exports are skipped, empty sessions are skipped, filters are applied,
and truthy-query zero-relevance sessions are dropped. -/
def processFetched (options : SearchOptions) (now : Int)
    (rs : List SearchResult) (o : Option OCSession) : List SearchResult :=
  match o with
  | none => rs
  | some raw =>
      let session := parseOpenCodeSession raw
      if session.userMessages = [] then rs
      else if !matchesFilters session options now then rs
      else
        let relevance := relevanceOf options session
        if queryTruthy options.query && relevance == 0 then rs
        else rs ++ [{ toParsedSession := session, relevance := relevance }]

/-- The comparator of the final sort (search lines 190-195): relevance
descending, then `endedAt` descending. -/
def resRel (a b : SearchResult) : Prop :=
  b.relevance < a.relevance ∨ (a.relevance = b.relevance ∧ b.endedAt ≤ a.endedAt)

instance : DecidableRel resRel := fun a b => by
  unfold resRel; infer_instance

instance : IsTotal SearchResult resRel where
  total a b := by
    unfold resRel
    rcases Nat.lt_trichotomy a.relevance b.relevance with h | h | h
    · exact Or.inr (Or.inl h)
    · rcases Int.le_total b.endedAt a.endedAt with h2 | h2
      · exact Or.inl (Or.inr ⟨h, h2⟩)
      · exact Or.inr (Or.inr ⟨h.symm, h2⟩)
    · exact Or.inl (Or.inl h)

instance : IsTrans SearchResult resRel where
  trans a b c hab hbc := by
    unfold resRel at *
    rcases hab with h1 | ⟨h1, h1'⟩ <;> rcases hbc with h2 | ⟨h2, h2'⟩
    · exact Or.inl (h2.trans h1)
    · exact Or.inl (h2 ▸ h1)
    · exact Or.inl (h1 ▸ h2)
    · exact Or.inr ⟨h1.trans h2, le_trans h2' h1'⟩

/-- The effective result cap (search line 198): `options.limit || 20`, so an
absent or zero limit falls back to 20. -/
def limitOf (options : SearchOptions) : Nat :=
  match options.limit with
  | some n => if n = 0 then 20 else n
  | none => 20

/-- Embeds `searchSessions` (search lines 155-200) over the fetch outcomes of
the enumerated sessions: accumulate retained results, sort by the comparator
(JavaScript sort is stable; insertion sort realizes it), truncate to the
limit. -/
def searchSessions (fetched : List (Option OCSession)) (options : SearchOptions)
    (now : Int) : List SearchResult :=
  let results := fetched.foldl (processFetched options now) []
  (List.insertionSort resRel results).take (limitOf options)

deriving instance DecidableEq for Except

/-- Whether a line survives the retention filter of the first loop. -/
def isRetained (l : LineResult) : Bool :=
  match l with
  | .malformed => false
  | .event e => e.type = "user" ∨ e.type = "assistant"

/-- The user-message contribution of one retained event (parser.ts lines
99-104): the original untrimmed string when the content is a string with
non-empty trim, nothing otherwise. -/
def uContrib (e : SessionEvent) : Option String :=
  if e.type = "user" then
    match e.message with
    | some p =>
        match p.content with
        | some (.str s) => if jsTrim s ≠ "" then some s else none
        | _ => none
    | none => none
  else none

/-- Well-formedness used by the token-totals invariant: an assistant event
carrying a usage record also declares a (truthy) model. -/
def usageHasModel (e : SessionEvent) : Bool :=
  if e.type = "assistant" then
    match e.message with
    | some p =>
        match p.usage with
        | some _ =>
            (match p.model with
             | some m => m ≠ ""
             | none => false)
        | none => true
    | none => true
  else true

/-- Element-wise sum of one counter over all per-model buckets. -/
def sumBy (f : Bucket → Nat) (mt : List (String × Bucket)) : Nat :=
  (mt.map fun kb => f kb.snd).sum

/-- Search options with nothing supplied. -/
def noOpts : SearchOptions :=
  ⟨none, none, none, none, none, none, none⟩

/-- A session with no extracted content (base for concrete test sessions). -/
def noSession : ParsedSession :=
  { id := "s", startedAt := 0, endedAt := 0, gitBranch := "", cwd := "",
    version := "", messageCount := 0, inputTokens := 0, outputTokens := 0,
    cacheCreationTokens := 0, cacheReadTokens := 0, userMessages := [],
    toolsUsed := [], filesFromToolCalls := [], modelsUsed := [],
    modelTokens := [], title := none, sessionType := "opencode" }

/-- Concrete JSONL transcript: a user line followed by an assistant line with
a tool call and a usage record. -/
def wEv1 : SessionEvent :=
  { type := "user",
    message := some { content := some (.str "Lets build septa tracker"),
                      model := none, usage := none },
    sessionId := some "abc", timestamp := 100, gitBranch := none,
    cwd := none, version := none }

/-- Concrete assistant event: model `m1`, usage, and an Edit tool call whose
input carries `file_path: "src/septa.ts"`. -/
def wEv2 : SessionEvent :=
  { type := "assistant",
    message := some
      { content := some (.arr (jarr [.obj (jobj [("type", .str "tool_use"),
          ("name", .str "Edit"),
          ("input", .obj (jobj [("file_path", .str "src/septa.ts")]))])])),
        model := some "m1",
        usage := some ⟨some 5, some 7, none, some 2⟩ },
    sessionId := none, timestamp := 200, gitBranch := none,
    cwd := none, version := none }

/-- The two-line transcript used by the line-delimited witnesses. -/
def wLines : List LineResult :=
  [.event wEv1, .event wEv2]

/-- The session the parser produces on `wLines`. -/
def wSession : ParsedSession :=
  { id := "abc", startedAt := 100, endedAt := 200, gitBranch := "unknown",
    cwd := "", version := "", messageCount := 2, inputTokens := 5,
    outputTokens := 7, cacheCreationTokens := 0, cacheReadTokens := 2,
    userMessages := ["Lets build septa tracker"], toolsUsed := ["Edit"],
    filesFromToolCalls := ["src/septa.ts"], modelsUsed := ["m1"],
    modelTokens := [("m1", ⟨5, 7, 0, 2⟩)], title := none,
    sessionType := "claude-code" }

/-- A transcript whose single assistant line carries usage but no model. -/
def c2lines : List LineResult :=
  [.event { type := "assistant",
            message := some { content := none, model := none,
                              usage := some ⟨some 5, some 3, some 2, some 1⟩ },
            sessionId := none, timestamp := 0, gitBranch := none,
            cwd := none, version := none }]

/-- A transcript with one assistant line and no user text at all. -/
def c3lines : List LineResult :=
  [.event { type := "assistant",
            message := some { content := none, model := none, usage := none },
            sessionId := none, timestamp := 0, gitBranch := none,
            cwd := none, version := none }]

/-- Raw file input whose whole-text `JSON.parse` throws (second line is
malformed) while the first line parses to a user event with no `message`
field; the trimmed content starts with a brace and contains the quoted
`info` and `messages` keys, so the structured branch is attempted first. -/
def c7input : RawInput :=
  { content := "\x7b\"type\":\"user\"\x7d\n\x7b\"info\" \"messages\"",
    wholeParse := none,
    lineResults :=
      [.event { type := "user", message := none, sessionId := none,
                timestamp := 0, gitBranch := none, cwd := none, version := none },
       .malformed],
    pathId := none }

/-- Concrete OpenCode export: one user message, one tool call whose `path`
parameter is the separator-free string `README`.  First the tool call: -/
def wOCCall : OCToolCall :=
  { name := "read",
    parameters := some { filePath := none, path := some "README", file := none } }

/-- The single message envelope of `wOC`. -/
def wOCMsg : OCMessage :=
  { info := { role := "user", model := none },
    parts := some [{ type := "text", text := some "fix the bug" }],
    toolCalls := some [wOCCall] }

/-- Concrete OpenCode export built from the pieces above. -/
def wOC : OCSession :=
  { info := { id := "s1", directory := "/proj", title := some "Septa App",
              created := 10, updated := 20 },
    messages := [wOCMsg] }

/-- The session `parseOpenCodeSession` produces on `wOC`. -/
def wOCParsed : ParsedSession :=
  { id := "s1", startedAt := 10, endedAt := 20, gitBranch := "", cwd := "/proj",
    version := "", messageCount := 1, inputTokens := 0, outputTokens := 0,
    cacheCreationTokens := 0, cacheReadTokens := 0,
    userMessages := ["fix the bug"], toolsUsed := ["read"],
    filesFromToolCalls := ["README"], modelsUsed := [],
    modelTokens := [], title := some "Septa App", sessionType := "opencode" }

/-- The single message envelope of `wOC2`. -/
def wOC2Msg : OCMessage :=
  { info := { role := "user", model := none },
    parts := some [{ type := "text", text := some "hello world" }],
    toolCalls := none }

/-- A second concrete OpenCode export, ending later than `wOC`. -/
def wOC2 : OCSession :=
  { info := { id := "s2", directory := "/proj", title := none,
              created := 30, updated := 40 },
    messages := [wOC2Msg] }

/-- Per-field hit score: the points accumulated over all query terms that
occur in a (lower-cased) haystack. -/
def termHits (hay : List Char) (terms : List (List Char)) (p : Nat) : Nat :=
  terms.foldl (fun sc term => if subSeg hay term then sc + p else sc) 0

/-- Invariant: every collected file path contains a separator. -/
def filesOK (acc : PAcc) : Prop :=
  ∀ f ∈ acc.filesFromToolCalls, hasSep f = true

/-- Invariant: the running token totals equal the element-wise sums over the
per-model buckets. -/
def tokInv (acc : PAcc) : Prop :=
  acc.inputTokens = sumBy Bucket.input acc.modelTokens ∧
  acc.outputTokens = sumBy Bucket.output acc.modelTokens ∧
  acc.cacheCreationTokens = sumBy Bucket.cacheCreation acc.modelTokens ∧
  acc.cacheReadTokens = sumBy Bucket.cacheRead acc.modelTokens

/-- Options with a positive limit of 5. -/
def wOpts4 : SearchOptions :=
  { noOpts with limit := some 5 }

/-- Options with a supplied limit of 0 (falsy in JavaScript). -/
def c4optsZero : SearchOptions :=
  { noOpts with limit := some 0 }

/-- Options with the truthy query `fix`. -/
def wOpts5 : SearchOptions :=
  { noOpts with query := some "fix" }

/-- A session that ended one millisecond before `now = 0`. -/
def c8sess : ParsedSession :=
  { noSession with endedAt := -1 }

/-- A session that ended exactly ten days before `now = 0`. -/
def c8past : ParsedSession :=
  { noSession with endedAt := -864000000 }

/-- Session whose single user message contains both query terms. -/
def c9a : ParsedSession :=
  { noSession with userMessages := ["a bcd"] }

/-- The same session after inserting an extra occurrence of the term `a`
into the middle of the message. -/
def c9b : ParsedSession :=
  { noSession with userMessages := ["a bacd"] }

/-!  Lemmas about the substring test. -/

theorem hasPre_iff (n h : List Char) : hasPre n h = true ↔ ∃ t, h = n ++ t := by
  induction n generalizing h with
  | nil => simp [hasPre]
  | cons a n ih =>
    cases h with
    | nil => simp [hasPre]
    | cons b t =>
      simp only [hasPre, Bool.and_eq_true, beq_iff_eq, ih]
      constructor
      · rintro ⟨rfl, u, rfl⟩
        exact ⟨u, rfl⟩
      · rintro ⟨u, hu⟩
        cases hu
        exact ⟨rfl, u, rfl⟩

theorem subSeg_iff (h n : List Char) : subSeg h n = true ↔ ∃ p t, h = p ++ n ++ t := by
  induction h with
  | nil =>
    simp only [subSeg, List.isEmpty_iff]
    constructor
    · rintro rfl
      exact ⟨[], [], rfl⟩
    · rintro ⟨p, t, hpt⟩
      have h3 : p = [] ∧ n = [] ∧ t = [] := by simpa using hpt.symm
      exact h3.2.1
  | cons c h ih =>
    simp only [subSeg, Bool.or_eq_true, hasPre_iff, ih]
    constructor
    · rintro (⟨t, ht⟩ | ⟨p, t, hpt⟩)
      · exact ⟨[], t, by simpa using ht⟩
      · exact ⟨c :: p, t, by simp [hpt]⟩
    · rintro ⟨p, t, hpt⟩
      cases p with
      | nil =>
        exact Or.inl ⟨t, by simpa using hpt⟩
      | cons c' p =>
        simp only [List.cons_append, List.cons.injEq] at hpt
        exact Or.inr ⟨p, t, hpt.2⟩

theorem subSeg_append_right (h h' n : List Char) (hs : subSeg h n = true) :
    subSeg (h ++ h') n = true := by
  rw [subSeg_iff] at hs ⊢
  obtain ⟨p, t, rfl⟩ := hs
  exact ⟨p, t ++ h', by simp⟩

theorem lower_append (s t : String) : lower (s ++ t) = lower s ++ lower t := by
  simp [lower]

/-!  Score arithmetic: the threaded folds of `scoreRelevance` are linear in
their initial value, which yields a closed normal form for the score. -/

theorem foldl_if_shift {α : Type} (c : α → Bool) (p : Nat) :
    ∀ (terms : List α) (sc : Nat),
      terms.foldl (fun s t => if c t then s + p else s) sc
        = sc + terms.foldl (fun s t => if c t then s + p else s) 0 := by
  intro terms
  induction terms with
  | nil => simp
  | cons t ts ih =>
    intro sc
    simp only [List.foldl_cons]
    by_cases h : c t
    · simp only [h, if_true]
      rw [ih (sc + p), ih (0 + p)]
      omega
    · simp only [h, if_false]
      exact ih sc

theorem termHits_eq_foldl (hay : List Char) (terms : List (List Char)) (p sc : Nat) :
    terms.foldl (fun s t => if subSeg hay t then s + p else s) sc
      = sc + termHits hay terms p :=
  foldl_if_shift (fun t => subSeg hay t) p terms sc

theorem foldl_nested_shift {α : Type} (hay : α → List Char)
    (terms : List (List Char)) (p : Nat) :
    ∀ (items : List α) (sc : Nat),
      items.foldl
        (fun s x => terms.foldl (fun s2 t => if subSeg (hay x) t then s2 + p else s2) s) sc
        = sc + (items.map fun x => termHits (hay x) terms p).sum := by
  intro items
  induction items with
  | nil => simp
  | cons x xs ih =>
    intro sc
    simp only [List.foldl_cons, List.map_cons, List.sum_cons]
    rw [termHits_eq_foldl, ih]
    omega

/-- Closed form of `scoreRelevance`: for a truthy query, the score is the sum
of the per-field term-hit counts with the documented weights. -/
theorem scoreRelevance_eq (session : ParsedSession) (q : String) :
    scoreRelevance session q =
      if q = "" then 1
      else
        (match session.title with
         | some t => if t ≠ "" then termHits (lower t) (splitWs (lower q)) 15 else 0
         | none => 0)
        + (session.userMessages.map fun m => termHits (lower m) (splitWs (lower q)) 10).sum
        + termHits (lower session.cwd) (splitWs (lower q)) 5
        + (session.toolsUsed.map fun t => termHits (lower t) (splitWs (lower q)) 3).sum
        + (session.filesFromToolCalls.map fun f => termHits (lower f) (splitWs (lower q)) 3).sum := by
  unfold scoreRelevance
  by_cases hq : q = ""
  · simp [hq]
  · simp only [if_neg hq]
    cases htitle : session.title with
    | none =>
      rw [foldl_nested_shift, termHits_eq_foldl, foldl_nested_shift, foldl_nested_shift]
    | some t =>
      by_cases ht : t = ""
      · simp only [ht, ne_eq, not_true_eq_false, if_false]
        rw [foldl_nested_shift, termHits_eq_foldl, foldl_nested_shift, foldl_nested_shift]
      · simp only [ne_eq, ht, not_false_eq_true, if_true]
        rw [termHits_eq_foldl, foldl_nested_shift, termHits_eq_foldl,
          foldl_nested_shift, foldl_nested_shift]
        omega

/-!  Set and bucket bookkeeping. -/

theorem mem_addSet {l : List String} {s x : String} (h : x ∈ addSet l s) :
    x ∈ l ∨ x = s := by
  unfold addSet at h
  split at h
  · exact Or.inl h
  · rcases List.mem_append.mp h with h1 | h1
    · exact Or.inl h1
    · exact Or.inr (List.mem_singleton.mp h1)

theorem mem_foldl_addSet :
    ∀ (adds l : List String) (x : String), x ∈ adds.foldl addSet l → x ∈ l ∨ x ∈ adds := by
  intro adds
  induction adds with
  | nil => intro l x h; exact Or.inl h
  | cons a as ih =>
    intro l x h
    rcases ih (addSet l a) x h with h1 | h1
    · rcases mem_addSet h1 with h2 | h2
      · exact Or.inl h2
      · exact Or.inr (by simp [h2])
    · exact Or.inr (List.mem_cons_of_mem a h1)

mutual
theorem hasSep_extract (v : JVal) : ∀ s ∈ extractFilePaths v, hasSep s = true :=
  match v with
  | .null => by simp [extractFilePaths]
  | .bool _ => by simp [extractFilePaths]
  | .num _ => by simp [extractFilePaths]
  | .str _ => by simp [extractFilePaths]
  | .arr elts => by simpa [extractFilePaths] using hasSep_extractElts elts
  | .obj fields => by simpa [extractFilePaths] using hasSep_extractFields fields

theorem hasSep_extractFields (fields : JObj) : ∀ s ∈ extractFromFields fields, hasSep s = true :=
  match fields with
  | .nil => by simp [extractFromFields]
  | .cons k v rest => by
    have h1 := hasSep_extract v
    have h2 := hasSep_extractFields rest
    intro s hs
    simp only [extractFromFields, List.mem_append] at hs
    rcases hs with (hs | hs) | hs
    · cases v with
      | str s' =>
        have hs2 : s ∈ (if k ∈ pathKeys ∧ hasSep s' = true then [s'] else []) := hs
        by_cases hg : k ∈ pathKeys ∧ hasSep s' = true
        · rw [if_pos hg] at hs2
          rw [List.mem_singleton.mp hs2]
          exact hg.2
        · rw [if_neg hg] at hs2
          exact absurd hs2 (List.not_mem_nil s)
      | null => exact absurd hs (List.not_mem_nil s)
      | bool b => exact absurd hs (List.not_mem_nil s)
      | num n => exact absurd hs (List.not_mem_nil s)
      | arr elts => exact absurd hs (List.not_mem_nil s)
      | obj fields2 => exact absurd hs (List.not_mem_nil s)
    · cases v with
      | obj fields2 => exact h1 s hs
      | null => exact absurd hs (List.not_mem_nil s)
      | bool b => exact absurd hs (List.not_mem_nil s)
      | num n => exact absurd hs (List.not_mem_nil s)
      | str s' => exact absurd hs (List.not_mem_nil s)
      | arr elts => exact absurd hs (List.not_mem_nil s)
    · exact h2 s hs

theorem hasSep_extractElts (elts : JArr) : ∀ s ∈ extractFromElts elts, hasSep s = true :=
  match elts with
  | .nil => by simp [extractFromElts]
  | .cons v rest => by
    have h1 := hasSep_extract v
    have h2 := hasSep_extractElts rest
    intro s hs
    simp only [extractFromElts, List.mem_append] at hs
    rcases hs with hs | hs
    · cases v with
      | obj fields2 => exact h1 s hs
      | null => exact absurd hs (List.not_mem_nil s)
      | bool b => exact absurd hs (List.not_mem_nil s)
      | num n => exact absurd hs (List.not_mem_nil s)
      | str s' => exact absurd hs (List.not_mem_nil s)
      | arr elts2 => exact absurd hs (List.not_mem_nil s)
    · exact h2 s hs
end

theorem findBucket_append_self (m : String) (b : Bucket) :
    ∀ mt : List (String × Bucket), (findBucket (mt ++ [(m, b)]) m).isSome = true := by
  intro mt
  induction mt with
  | nil => simp [findBucket]
  | cons kb rest ih =>
    obtain ⟨k, b'⟩ := kb
    by_cases hk : k = m
    · simp [findBucket, hk]
    · simpa [findBucket, hk] using ih

theorem findBucket_ensure (mt : List (String × Bucket)) (m : String) :
    (findBucket (ensureBucket mt m) m).isSome = true := by
  unfold ensureBucket
  split
  · assumption
  · exact findBucket_append_self m Bucket.zero mt

theorem sumBy_append (f : Bucket → Nat) (mt l : List (String × Bucket)) :
    sumBy f (mt ++ l) = sumBy f mt + sumBy f l := by
  simp [sumBy]

theorem sumBy_ensure (f : Bucket → Nat) (mt : List (String × Bucket)) (m : String)
    (hz : f Bucket.zero = 0) : sumBy f (ensureBucket mt m) = sumBy f mt := by
  unfold ensureBucket
  split
  · rfl
  · rw [sumBy_append]
    simp [sumBy, hz]

theorem sumBy_updBuckets (f : Bucket → Nat) (u : Usage) (d : Nat)
    (hb : ∀ b, f (bucketAdd b u) = f b + d) (m : String) :
    ∀ mt : List (String × Bucket), (findBucket mt m).isSome = true →
      sumBy f (updBuckets mt m u) = sumBy f mt + d := by
  intro mt
  induction mt with
  | nil => intro hm; simp [findBucket] at hm
  | cons kb rest ih =>
    obtain ⟨k, b⟩ := kb
    intro hm
    by_cases hk : k = m
    · simp only [updBuckets, if_pos hk, sumBy, List.map_cons, List.sum_cons]
      rw [hb b]
      simp only [sumBy] at *
      omega
    · simp only [findBucket, if_neg hk] at hm
      simp only [updBuckets, if_neg hk, sumBy, List.map_cons, List.sum_cons]
      have := ih hm
      simp only [sumBy] at this
      omega

/-!  Specifications of the accumulator steps. -/

theorem stepBlock_spec {acc a' : PAcc} {b : JVal} (h : stepBlock acc b = .ok a') :
    a'.userMessages = acc.userMessages ∧
    a'.modelsUsed = acc.modelsUsed ∧
    a'.inputTokens = acc.inputTokens ∧
    a'.outputTokens = acc.outputTokens ∧
    a'.cacheCreationTokens = acc.cacheCreationTokens ∧
    a'.cacheReadTokens = acc.cacheReadTokens ∧
    a'.modelTokens = acc.modelTokens ∧
    (∀ f ∈ a'.filesFromToolCalls, f ∈ acc.filesFromToolCalls ∨ hasSep f = true) := by
  cases b with
  | null => exact absurd h (by simp [stepBlock])
  | bool b => 
    refine Except.ok.inj h ▸ ?_
    exact ⟨rfl, rfl, rfl, rfl, rfl, rfl, rfl, fun f hf => Or.inl hf⟩
  | num n =>
    refine Except.ok.inj h ▸ ?_
    exact ⟨rfl, rfl, rfl, rfl, rfl, rfl, rfl, fun f hf => Or.inl hf⟩
  | str s =>
    refine Except.ok.inj h ▸ ?_
    exact ⟨rfl, rfl, rfl, rfl, rfl, rfl, rfl, fun f hf => Or.inl hf⟩
  | arr elts =>
    refine Except.ok.inj h ▸ ?_
    exact ⟨rfl, rfl, rfl, rfl, rfl, rfl, rfl, fun f hf => Or.inl hf⟩
  | obj fields =>
    simp only [stepBlock] at h
    have ha := Except.ok.inj h
    subst ha
    repeat' split
    all_goals refine ⟨rfl, rfl, rfl, rfl, rfl, rfl, rfl, fun f hf => ?_⟩
    all_goals try exact Or.inl hf
    all_goals rcases mem_foldl_addSet _ _ f hf with h1 | h1
    · exact Or.inl h1
    · exact Or.inr (hasSep_extract _ f h1)

theorem foldBlocks_spec :
    ∀ (blocks : JArr) (acc a' : PAcc), foldBlocks acc blocks = .ok a' →
    a'.userMessages = acc.userMessages ∧
    a'.modelsUsed = acc.modelsUsed ∧
    a'.inputTokens = acc.inputTokens ∧
    a'.outputTokens = acc.outputTokens ∧
    a'.cacheCreationTokens = acc.cacheCreationTokens ∧
    a'.cacheReadTokens = acc.cacheReadTokens ∧
    a'.modelTokens = acc.modelTokens ∧
    (∀ f ∈ a'.filesFromToolCalls, f ∈ acc.filesFromToolCalls ∨ hasSep f = true) := by
  intro blocks
  intro acc a' h
  match blocks, h with
  | .nil, h =>
    simp only [foldBlocks] at h
    have := Except.ok.inj h
    subst this
    exact ⟨rfl, rfl, rfl, rfl, rfl, rfl, rfl, fun f hf => Or.inl hf⟩
  | .cons b rest, h =>
    simp only [foldBlocks] at h
    cases hb : stepBlock acc b with
    | error e =>
      rw [hb] at h
      exact Except.noConfusion h
    | ok a1 =>
      rw [hb] at h
      have h2 : foldBlocks a1 rest = .ok a' := h
      obtain ⟨u1, u2, u3, u4, u5, u6, u7, u8⟩ := stepBlock_spec hb
      obtain ⟨v1, v2, v3, v4, v5, v6, v7, v8⟩ := foldBlocks_spec rest a1 a' h2
      refine ⟨v1.trans u1, v2.trans u2, v3.trans u3, v4.trans u4, v5.trans u5,
        v6.trans u6, v7.trans u7, fun f hf => ?_⟩
      rcases v8 f hf with h1 | h1
      · exact u8 f h1
      · exact Or.inr h1

theorem stepBlocks_spec {acc a' : PAcc} {p : MsgPayload} (h : stepBlocks acc p = .ok a') :
    a'.userMessages = acc.userMessages ∧
    a'.modelsUsed = acc.modelsUsed ∧
    a'.inputTokens = acc.inputTokens ∧
    a'.outputTokens = acc.outputTokens ∧
    a'.cacheCreationTokens = acc.cacheCreationTokens ∧
    a'.cacheReadTokens = acc.cacheReadTokens ∧
    a'.modelTokens = acc.modelTokens ∧
    (∀ f ∈ a'.filesFromToolCalls, f ∈ acc.filesFromToolCalls ∨ hasSep f = true) := by
  unfold stepBlocks at h
  split at h
  · exact foldBlocks_spec _ _ _ h
  · have := Except.ok.inj h
    subst this
    exact ⟨rfl, rfl, rfl, rfl, rfl, rfl, rfl, fun f hf => Or.inl hf⟩

/-- Carry `tokInv` across an accumulator whose token fields agree. -/
theorem tokInv_transfer {a b : PAcc} (h3 : a.inputTokens = b.inputTokens)
    (h4 : a.outputTokens = b.outputTokens)
    (h5 : a.cacheCreationTokens = b.cacheCreationTokens)
    (h6 : a.cacheReadTokens = b.cacheReadTokens)
    (h7 : a.modelTokens = b.modelTokens) (h : tokInv b) : tokInv a := by
  unfold tokInv at *
  rw [h3, h4, h5, h6, h7]
  exact h

theorem tokInv_registerModel (acc : PAcc) (p : MsgPayload) (h : tokInv acc) :
    tokInv (registerModel acc p) := by
  unfold registerModel
  split
  · split
    · exact h
    · unfold tokInv at h ⊢
      dsimp only
      rw [sumBy_ensure Bucket.input _ _ rfl, sumBy_ensure Bucket.output _ _ rfl,
        sumBy_ensure Bucket.cacheCreation _ _ rfl, sumBy_ensure Bucket.cacheRead _ _ rfl]
      exact h
  · exact h

theorem registerModel_findBucket (acc : PAcc) (p : MsgPayload) {m : String}
    (hpm : p.model = some m) (hm : ¬m = "") :
    (findBucket (registerModel acc p).modelTokens m).isSome = true := by
  unfold registerModel
  rw [hpm]
  dsimp only
  rw [if_neg hm]
  exact findBucket_ensure _ _

theorem tokInv_usage (acc : PAcc) (p : MsgPayload) (u : Usage) (h : tokInv acc)
    (hm : ∃ m, p.model = some m ∧ ¬m = "" ∧ (findBucket acc.modelTokens m).isSome = true) :
    tokInv (addUsagePerModel (addUsageTotals acc u) p u) := by
  obtain ⟨m, hpm, hmne, hfb⟩ := hm
  unfold addUsagePerModel addUsageTotals
  rw [hpm]
  dsimp only
  rw [if_neg hmne, if_pos hfb]
  unfold tokInv at h ⊢
  dsimp only
  rw [sumBy_updBuckets Bucket.input u (u.input_tokens.getD 0) (fun b => rfl) m _ hfb,
    sumBy_updBuckets Bucket.output u (u.output_tokens.getD 0) (fun b => rfl) m _ hfb,
    sumBy_updBuckets Bucket.cacheCreation u (u.cache_creation_input_tokens.getD 0) (fun b => rfl) m _ hfb,
    sumBy_updBuckets Bucket.cacheRead u (u.cache_read_input_tokens.getD 0) (fun b => rfl) m _ hfb]
  omega

/-- The pre-block accumulator of the assistant branch changes neither the
user-message log nor the file set. -/
theorem preBlocks_other (acc : PAcc) (p : MsgPayload) :
    ((match p.usage with
      | some u => addUsagePerModel (addUsageTotals (registerModel acc p) u) p u
      | none => registerModel acc p) : PAcc).userMessages = acc.userMessages ∧
    ((match p.usage with
      | some u => addUsagePerModel (addUsageTotals (registerModel acc p) u) p u
      | none => registerModel acc p) : PAcc).filesFromToolCalls = acc.filesFromToolCalls := by
  cases p.usage <;>
    unfold addUsagePerModel addUsageTotals registerModel <;>
    (repeat' split) <;> exact ⟨rfl, rfl⟩

theorem tokInv_preBlocks (acc : PAcc) (p : MsgPayload)
    (hwf : p.usage.isSome = true → ∃ m, p.model = some m ∧ ¬m = "")
    (h : tokInv acc) :
    tokInv ((match p.usage with
      | some u => addUsagePerModel (addUsageTotals (registerModel acc p) u) p u
      | none => registerModel acc p) : PAcc) := by
  cases hu : p.usage with
  | none => exact tokInv_registerModel acc p h
  | some u =>
    obtain ⟨m, hpm, hmne⟩ := hwf (by simp [hu])
    exact tokInv_usage (registerModel acc p) p u (tokInv_registerModel acc p h)
      ⟨m, hpm, hmne, registerModel_findBucket acc p hpm hmne⟩

theorem usageHasModel_assistant {e : SessionEvent} {p : MsgPayload}
    (ha : e.type = "assistant") (hm : e.message = some p)
    (hw : usageHasModel e = true) :
    p.usage.isSome = true → ∃ m, p.model = some m ∧ ¬m = "" := by
  intro hus
  unfold usageHasModel at hw
  rw [if_pos ha, hm] at hw
  dsimp only at hw
  cases hup : p.usage with
  | none => rw [hup] at hus; simp at hus
  | some u =>
    rw [hup] at hw
    dsimp only at hw
    cases hpm : p.model with
    | none =>
      rw [hpm] at hw
      dsimp only at hw
      exact absurd hw (by simp)
    | some m =>
      rw [hpm] at hw
      dsimp only at hw
      exact ⟨m, rfl, by simpa using hw⟩

theorem step_tokInv {acc a' : PAcc} {e : SessionEvent} (h : step acc e = .ok a')
    (hwf : usageHasModel e = true) (hinv : tokInv acc) : tokInv a' := by
  unfold step at h
  by_cases ht : e.type = "user"
  · rw [if_pos ht] at h
    cases hm : e.message with
    | none => rw [hm] at h; exact Except.noConfusion h
    | some p =>
      rw [hm] at h
      dsimp only at h
      have := Except.ok.inj h
      subst this
      unfold stepUser
      split
      · split
        · exact hinv
        · exact hinv
      · exact hinv
  · rw [if_neg ht] at h
    by_cases ha : e.type = "assistant"
    · rw [if_pos ha] at h
      cases hm : e.message with
      | none => rw [hm] at h; exact Except.noConfusion h
      | some p =>
        rw [hm] at h
        dsimp only at h
        unfold stepAssistant at h
        have hpre : tokInv ((match p.usage with
          | some u => addUsagePerModel (addUsageTotals (registerModel acc p) u) p u
          | none => registerModel acc p) : PAcc) :=
          tokInv_preBlocks acc p (usageHasModel_assistant ha hm hwf) hinv
        obtain ⟨s1, s2, s3, s4, s5, s6, s7, s8⟩ := stepBlocks_spec h
        exact tokInv_transfer s3 s4 s5 s6 s7 hpre
    · rw [if_neg ha] at h
      have := Except.ok.inj h
      subst this
      exact hinv

theorem step_files {acc a' : PAcc} {e : SessionEvent} (h : step acc e = .ok a')
    (hf : filesOK acc) : filesOK a' := by
  unfold step at h
  by_cases ht : e.type = "user"
  · rw [if_pos ht] at h
    cases hm : e.message with
    | none => rw [hm] at h; exact Except.noConfusion h
    | some p =>
      rw [hm] at h
      dsimp only at h
      have := Except.ok.inj h
      subst this
      unfold stepUser
      split
      · split
        · exact hf
        · exact hf
      · exact hf
  · rw [if_neg ht] at h
    by_cases ha : e.type = "assistant"
    · rw [if_pos ha] at h
      cases hm : e.message with
      | none => rw [hm] at h; exact Except.noConfusion h
      | some p =>
        rw [hm] at h
        dsimp only at h
        unfold stepAssistant at h
        have hpre := (preBlocks_other acc p).2
        obtain ⟨s1, s2, s3, s4, s5, s6, s7, s8⟩ := stepBlocks_spec h
        intro f hf2
        rcases s8 f hf2 with h1 | h1
        · exact hf f (hpre ▸ h1)
        · exact h1
    · rw [if_neg ha] at h
      have := Except.ok.inj h
      subst this
      exact hf

theorem step_userMessages {acc a' : PAcc} {e : SessionEvent} (h : step acc e = .ok a') :
    a'.userMessages = acc.userMessages ++ (uContrib e).toList := by
  unfold step at h
  by_cases ht : e.type = "user"
  · rw [if_pos ht] at h
    cases hm : e.message with
    | none => rw [hm] at h; exact Except.noConfusion h
    | some p =>
      rw [hm] at h
      dsimp only at h
      have := Except.ok.inj h
      subst this
      unfold stepUser uContrib
      rw [if_pos ht, hm]
      dsimp only
      cases hc : p.content with
      | none => simp
      | some v =>
        cases v with
        | str s =>
          dsimp only
          by_cases hts : jsTrim s ≠ ""
          · rw [if_pos hts, if_pos hts]
            simp
          · rw [if_neg hts, if_neg hts]
            simp
        | null => simp
        | bool b => simp
        | num n => simp
        | arr elts => simp
        | obj fields => simp
  · rw [if_neg ht] at h
    have hc : uContrib e = none := by
      unfold uContrib
      rw [if_neg ht]
    rw [hc]
    by_cases ha : e.type = "assistant"
    · rw [if_pos ha] at h
      cases hm : e.message with
      | none => rw [hm] at h; exact Except.noConfusion h
      | some p =>
        rw [hm] at h
        dsimp only at h
        unfold stepAssistant at h
        have hpre := (preBlocks_other acc p).1
        rw [(stepBlocks_spec h).1, hpre]
        simp
    · rw [if_neg ha] at h
      have := Except.ok.inj h
      subst this
      simp

theorem foldlM_files :
    ∀ (msgs : List SessionEvent) (acc a' : PAcc),
      List.foldlM step acc msgs = .ok a' → filesOK acc → filesOK a' := by
  intro msgs
  induction msgs with
  | nil =>
    intro acc a' h hf
    rw [List.foldlM_nil] at h
    have := Except.ok.inj h
    subst this
    exact hf
  | cons e rest ih =>
    intro acc a' h hf
    rw [List.foldlM_cons] at h
    cases hs : step acc e with
    | error u => rw [hs] at h; exact Except.noConfusion h
    | ok a1 =>
      rw [hs] at h
      have h2 : List.foldlM step a1 rest = .ok a' := h
      exact ih a1 a' h2 (step_files hs hf)

theorem foldlM_userMessages :
    ∀ (msgs : List SessionEvent) (acc a' : PAcc),
      List.foldlM step acc msgs = .ok a' →
      a'.userMessages = acc.userMessages ++ msgs.filterMap uContrib := by
  intro msgs
  induction msgs with
  | nil =>
    intro acc a' h
    rw [List.foldlM_nil] at h
    have := Except.ok.inj h
    subst this
    simp
  | cons e rest ih =>
    intro acc a' h
    rw [List.foldlM_cons] at h
    cases hs : step acc e with
    | error u => rw [hs] at h; exact Except.noConfusion h
    | ok a1 =>
      rw [hs] at h
      have h2 : List.foldlM step a1 rest = .ok a' := h
      rw [ih a1 a' h2, step_userMessages hs]
      cases hc : uContrib e <;> simp [List.filterMap_cons, hc]

theorem foldlM_tokInv :
    ∀ (msgs : List SessionEvent) (acc a' : PAcc),
      (∀ e ∈ msgs, usageHasModel e = true) →
      List.foldlM step acc msgs = .ok a' → tokInv acc → tokInv a' := by
  intro msgs
  induction msgs with
  | nil =>
    intro acc a' hwf h hi
    rw [List.foldlM_nil] at h
    have := Except.ok.inj h
    subst this
    exact hi
  | cons e rest ih =>
    intro acc a' hwf h hi
    rw [List.foldlM_cons] at h
    cases hs : step acc e with
    | error u => rw [hs] at h; exact Except.noConfusion h
    | ok a1 =>
      rw [hs] at h
      have h2 : List.foldlM step a1 rest = .ok a' := h
      exact ih a1 a' (fun x hx => hwf x (List.mem_cons_of_mem e hx)) h2
        (step_tokInv hs (hwf e (List.mem_cons_self e rest)) hi)

theorem tokInv_initAcc : tokInv initAcc := by
  unfold tokInv initAcc sumBy
  simp

theorem filesOK_initAcc : filesOK initAcc := by
  intro f hf
  simp [initAcc] at hf

/-- Any successfully parsed (non-null) session decomposes into the retained
events, the accumulator run, and the assembly step. -/
theorem parse_ok_structure {lines : List LineResult} {pid : Option String}
    {s : ParsedSession} (h : parseSessionContent lines pid = .ok (some s)) :
    ∃ m0 rest acc, retainedEvents lines = m0 :: rest ∧
      List.foldlM step initAcc (m0 :: rest) = .ok acc ∧
      s = buildSession m0 rest acc pid := by
  unfold parseSessionContent at h
  split at h
  · exact absurd (Except.ok.inj h) (by simp)
  · unfold parseCore at h
    cases hr : retainedEvents lines with
    | nil => rw [hr] at h; exact absurd (Except.ok.inj h) (by simp)
    | cons m0 rest =>
      rw [hr] at h
      dsimp only at h
      cases hacc : List.foldlM step initAcc (m0 :: rest) with
      | error u => rw [hacc] at h; exact Except.noConfusion h
      | ok acc =>
        rw [hacc] at h
        have h2 : (pure (some (buildSession m0 rest acc pid)) : Except Unit (Option ParsedSession)) = .ok (some s) := h
        exact ⟨m0, rest, acc, rfl, hacc, (Option.some.inj (Except.ok.inj h2)).symm⟩

/-!  Search pipeline: membership, ordering, truncation. -/

theorem mem_processFetched {options : SearchOptions} {now : Int}
    {rs : List SearchResult} {o : Option OCSession} {r : SearchResult}
    (h : r ∈ processFetched options now rs o) :
    r ∈ rs ∨
      ∃ raw, o = some raw ∧
        r = { toParsedSession := parseOpenCodeSession raw,
              relevance := relevanceOf options (parseOpenCodeSession raw) } ∧
        (parseOpenCodeSession raw).userMessages ≠ [] ∧
        matchesFilters (parseOpenCodeSession raw) options now = true ∧
        (queryTruthy options.query && relevanceOf options (parseOpenCodeSession raw) == 0) = false := by
  unfold processFetched at h
  cases o with
  | none => exact Or.inl h
  | some raw =>
    dsimp only at h
    by_cases h1 : (parseOpenCodeSession raw).userMessages = []
    · rw [if_pos h1] at h
      exact Or.inl h
    · rw [if_neg h1] at h
      cases hmf : matchesFilters (parseOpenCodeSession raw) options now with
      | false =>
        rw [hmf] at h
        exact Or.inl h
      | true =>
        rw [hmf] at h
        cases hq : queryTruthy options.query && relevanceOf options (parseOpenCodeSession raw) == 0 with
        | true =>
          rw [hq] at h
          exact Or.inl h
        | false =>
          rw [hq] at h
          have h2 : r ∈ rs ++ [{ toParsedSession := parseOpenCodeSession raw, relevance := relevanceOf options (parseOpenCodeSession raw) }] := h
          rcases List.mem_append.mp h2 with h3 | h3
          · exact Or.inl h3
          · exact Or.inr ⟨raw, rfl, List.mem_singleton.mp h3, h1, hmf, hq⟩

theorem mem_foldl_processFetched {options : SearchOptions} {now : Int} :
    ∀ (fetched : List (Option OCSession)) (rs : List SearchResult) (r : SearchResult),
      r ∈ fetched.foldl (processFetched options now) rs →
      r ∈ rs ∨
        ∃ raw, some raw ∈ fetched ∧
          r = { toParsedSession := parseOpenCodeSession raw,
                relevance := relevanceOf options (parseOpenCodeSession raw) } ∧
          (parseOpenCodeSession raw).userMessages ≠ [] ∧
          matchesFilters (parseOpenCodeSession raw) options now = true ∧
          (queryTruthy options.query && relevanceOf options (parseOpenCodeSession raw) == 0) = false := by
  intro fetched
  induction fetched with
  | nil => intro rs r h; exact Or.inl h
  | cons o os ih =>
    intro rs r h
    rw [List.foldl_cons] at h
    rcases ih _ r h with h1 | ⟨raw, hraw, hrest⟩
    · rcases mem_processFetched h1 with h2 | ⟨raw, hro, hrest⟩
      · exact Or.inl h2
      · exact Or.inr ⟨raw, by simp [hro], hrest⟩
    · exact Or.inr ⟨raw, List.mem_cons_of_mem o hraw, hrest⟩

/-- Every member of the final result list was pushed by the loop with its
guards satisfied. -/
theorem mem_searchSessions {fetched : List (Option OCSession)} {options : SearchOptions}
    {now : Int} {r : SearchResult} (h : r ∈ searchSessions fetched options now) :
    ∃ raw, some raw ∈ fetched ∧
      r = { toParsedSession := parseOpenCodeSession raw,
            relevance := relevanceOf options (parseOpenCodeSession raw) } ∧
      (parseOpenCodeSession raw).userMessages ≠ [] ∧
      matchesFilters (parseOpenCodeSession raw) options now = true ∧
      (queryTruthy options.query && relevanceOf options (parseOpenCodeSession raw) == 0) = false := by
  unfold searchSessions at h
  have h1 := List.take_subset _ _ h
  have h2 := (List.perm_insertionSort resRel _).mem_iff.mp h1
  rcases mem_foldl_processFetched _ _ _ h2 with h3 | h3
  · exact absurd h3 (List.not_mem_nil r)
  · exact h3

theorem searchSessions_sorted (fetched : List (Option OCSession)) (options : SearchOptions)
    (now : Int) : List.Pairwise resRel (searchSessions fetched options now) := by
  unfold searchSessions
  exact (List.sorted_insertionSort resRel _).sublist (List.take_sublist _ _)

theorem searchSessions_length (fetched : List (Option OCSession)) (options : SearchOptions)
    (now : Int) : (searchSessions fetched options now).length ≤ limitOf options := by
  unfold searchSessions
  rw [List.length_take]
  exact min_le_left _ _

/-- C1 (amended): every string in `filesFromToolCalls` produced by the
line-delimited (Claude Code JSONL) extractor contains a path separator
character; the structured-export (OpenCode) extractor does not enforce this
(see the counterexample). -/
theorem C1_line_files_have_separator (lines : List LineResult)
    (pathId : Option String) (s : ParsedSession)
    (h : parseSessionContent lines pathId = .ok (some s)) :
    ∀ f ∈ s.filesFromToolCalls, hasSep f = true := by
  obtain ⟨m0, rest, acc, hr, hacc, hs⟩ := parse_ok_structure h
  have hfo := foldlM_files _ _ _ hacc filesOK_initAcc
  subst hs
  exact fun f hf => hfo f hf

/-- Witness for C1: the concrete transcript `wLines` parses successfully and
its collected path `src/septa.ts` indeed carries a separator. -/
theorem C1_witness : hasSep "src/septa.ts" = true :=
  C1_line_files_have_separator wLines none wSession (by decide) "src/septa.ts" (by decide)

/-- C1 counterexample: the OpenCode extractor stores the separator-free tool
parameter `README` in `filesFromToolCalls`, violating the invariant as
stated for both variants. -/
theorem C1_cex_opencode_no_separator :
    (parseOpenCodeSession wOC).filesFromToolCalls = ["README"] ∧
    hasSep "README" = false := by
  exact ⟨by decide, by decide⟩

/-- C2 (amended): for line-delimited input in which every retained assistant
event that carries a usage record also declares a (truthy) model, the four
token totals equal the element-wise sums over `modelTokens`; the OpenCode
extractor satisfies the invariant unconditionally (all totals zero, empty
`modelTokens`). -/
theorem C2_token_totals_match_model_sums :
    (∀ (lines : List LineResult) (pathId : Option String) (s : ParsedSession),
        (∀ e ∈ retainedEvents lines, usageHasModel e = true) →
        parseSessionContent lines pathId = .ok (some s) →
        s.inputTokens = sumBy Bucket.input s.modelTokens ∧
        s.outputTokens = sumBy Bucket.output s.modelTokens ∧
        s.cacheCreationTokens = sumBy Bucket.cacheCreation s.modelTokens ∧
        s.cacheReadTokens = sumBy Bucket.cacheRead s.modelTokens)
    ∧ (∀ oc : OCSession,
        (parseOpenCodeSession oc).inputTokens
            = sumBy Bucket.input (parseOpenCodeSession oc).modelTokens ∧
        (parseOpenCodeSession oc).outputTokens
            = sumBy Bucket.output (parseOpenCodeSession oc).modelTokens ∧
        (parseOpenCodeSession oc).cacheCreationTokens
            = sumBy Bucket.cacheCreation (parseOpenCodeSession oc).modelTokens ∧
        (parseOpenCodeSession oc).cacheReadTokens
            = sumBy Bucket.cacheRead (parseOpenCodeSession oc).modelTokens) := by
  constructor
  · intro lines pathId s hwf h
    obtain ⟨m0, rest, acc, hr, hacc, hs⟩ := parse_ok_structure h
    rw [hr] at hwf
    have hinv := foldlM_tokInv _ _ _ hwf hacc tokInv_initAcc
    subst hs
    exact hinv
  · intro oc
    exact ⟨rfl, rfl, rfl, rfl⟩

/-- Witness for C2: on the concrete transcript `wLines` (one model, one usage
record) the invariant holds with totals `(5, 7, 0, 2)`. -/
theorem C2_witness :
    wSession.inputTokens = sumBy Bucket.input wSession.modelTokens ∧
    wSession.outputTokens = sumBy Bucket.output wSession.modelTokens ∧
    wSession.cacheCreationTokens = sumBy Bucket.cacheCreation wSession.modelTokens ∧
    wSession.cacheReadTokens = sumBy Bucket.cacheRead wSession.modelTokens :=
  C2_token_totals_match_model_sums.1 wLines none wSession (by decide) (by decide)

/-- C2 counterexample: an assistant line carrying usage but no model yields a
session whose `inputTokens` is 5 while the element-wise sum over the (empty)
`modelTokens` is 0, so the invariant fails as stated for all inputs. -/
theorem C2_cex_usage_without_model :
    (parseSessionContent c2lines none).map (fun o => o.map fun s =>
      (s.inputTokens, sumBy Bucket.input s.modelTokens)) = .ok (some (5, 0)) := by
  decide

/-- C10: a retained user event contributes to `userMessages` exactly when its
message content is a string with non-empty trim, and the original untrimmed
string is stored; non-string or whitespace-only contents are omitted.  The
whole log equals the in-order contributions of the retained events. -/
theorem C10_user_message_retention (lines : List LineResult)
    (pathId : Option String) (s : ParsedSession)
    (h : parseSessionContent lines pathId = .ok (some s)) :
    s.userMessages = (retainedEvents lines).filterMap uContrib := by
  obtain ⟨m0, rest, acc, hr, hacc, hs⟩ := parse_ok_structure h
  have hu := foldlM_userMessages _ _ _ hacc
  subst hs
  rw [hr]
  simpa [initAcc] using hu

/-- Witness for C10: the concrete transcript `wLines` stores exactly the
untrimmed user string of its single contributing user event. -/
theorem C10_witness :
    wSession.userMessages = (retainedEvents wLines).filterMap uContrib :=
  C10_user_message_retention wLines none wSession (by decide)

/-- The whole JSONL parse factors through the retained events: an empty line
list and an all-lines-rejected list both yield the null session. -/
theorem parse_eq_parseCore (lines : List LineResult) (pathId : Option String) :
    parseSessionContent lines pathId = parseCore (retainedEvents lines) pathId := by
  cases lines with
  | nil => rfl
  | cons l rest => rfl

/-- C3 (amended): the line-delimited extractor returns the null result
exactly when zero conversational events are retained — so an empty extracted
user-message sequence never causes a null result: with retained events the
parse either throws or returns the session object (see the counterexample),
and the exclusion of empty-user-message sessions happens in the caller
(`searchSessions` results never contain one); the OpenCode extractor never
returns null (its embedding is total into sessions). -/
theorem C3_null_policy :
    (∀ (lines : List LineResult) (pathId : Option String),
        parseSessionContent lines pathId = .ok none ↔ retainedEvents lines = [])
    ∧ (∀ (fetched : List (Option OCSession)) (options : SearchOptions) (now : Int)
        (r : SearchResult), r ∈ searchSessions fetched options now →
        r.userMessages ≠ []) := by
  constructor
  · intro lines pathId
    rw [parse_eq_parseCore]
    cases hr : retainedEvents lines with
    | nil => simp [parseCore]
    | cons m0 rest =>
      unfold parseCore
      dsimp only
      constructor
      · intro h
        exfalso
        cases hacc : List.foldlM step initAcc (m0 :: rest) with
        | error u => rw [hacc] at h; exact Except.noConfusion h
        | ok acc =>
          rw [hacc] at h
          have h2 : (Except.ok (some (buildSession m0 rest acc pathId))
              : Except Unit (Option ParsedSession)) = .ok none := h
          exact Option.noConfusion (Except.ok.inj h2)
      · intro h
        exact absurd h (by simp)
  · intro fetched options now r h
    obtain ⟨raw, hmem, hre, hne, _, _⟩ := mem_searchSessions h
    subst hre
    exact hne

/-- Witness for C3: the empty transcript parses to null, the assistant-only
transcript `c3lines` is not null (so its retained events are non-empty, by
the converse direction), and a concrete search result of a one-session run
has a non-empty user-message log. -/
theorem C3_witness :
    parseSessionContent ([] : List LineResult) none = Except.ok none ∧
    retainedEvents c3lines ≠ [] ∧
    ({ toParsedSession := wOCParsed, relevance := 1 } : SearchResult).userMessages ≠ [] :=
  ⟨(C3_null_policy.1 [] none).mpr rfl,
   fun h => absurd ((C3_null_policy.1 c3lines none).mpr h) (by decide),
   C3_null_policy.2 [some wOC] noOpts 0 _ (by decide)⟩

/-- C3 counterexample: a transcript with one assistant event and no user text
yields a non-null session with an empty `userMessages`, not the null result
the claim requires of the extractor. -/
theorem C3_cex_assistant_only_not_null :
    (parseSessionContent c3lines none).map (fun o => o.map fun s => s.userMessages)
      = .ok (some []) := by
  decide

/-- C6: a line whose JSON parse fails, or whose declared type is neither
`user` nor `assistant`, is silently skipped — parsing a transcript with such
a line interposed gives exactly the result of parsing without it, so
surrounding valid lines are never lost and no error is raised by the skip. -/
theorem C6_malformed_line_skipped (xs ys : List LineResult) (pathId : Option String)
    (b : LineResult) (hb : isRetained b = false) :
    parseSessionContent (xs ++ b :: ys) pathId = parseSessionContent (xs ++ ys) pathId := by
  rw [parse_eq_parseCore, parse_eq_parseCore]
  have hr : retainedEvents (xs ++ b :: ys) = retainedEvents (xs ++ ys) := by
    unfold retainedEvents
    rw [List.filterMap_append, List.filterMap_append, List.filterMap_cons]
    cases b with
    | malformed => rfl
    | event e =>
      have hne : ¬(e.type = "user" ∨ e.type = "assistant") := by
        unfold isRetained at hb
        exact of_decide_eq_false hb
      simp [hne]
  rw [hr]

/-- Witness for C6 (Scenario E): a malformed line between the two valid lines
of `wLines` changes nothing about the parse. -/
theorem C6_witness :
    parseSessionContent [.event wEv1, .malformed, .event wEv2] none
      = parseSessionContent wLines none :=
  C6_malformed_line_skipped [.event wEv1] [.event wEv2] none .malformed (by decide)

/-- C7 (code bug): on `c7input` the structured-export JSON parse throws, the
fallback line-delimited parse retains the first line (type `user`, but with
no `message` object), and the unguarded `userMsg.content` access then throws
a TypeError — the fallback raises instead of degrading to the null session. -/
theorem C7_fallback_throws : parseSessionFile c7input = .error () := by
  decide

/-- C4 (amended): the pipeline output is pairwise sorted by relevance
descending with `endedAt` descending as tie-break, and has at most
`limitOf options` entries — the supplied limit when positive, and 20 when
the limit is absent or a (falsy) 0. -/
theorem C4_sorted_and_limited (fetched : List (Option OCSession))
    (options : SearchOptions) (now : Int) :
    List.Pairwise resRel (searchSessions fetched options now)
    ∧ (searchSessions fetched options now).length ≤ limitOf options
    ∧ (options.limit = none → limitOf options = 20)
    ∧ (∀ n, options.limit = some n → 0 < n → limitOf options = n) := by
  refine ⟨searchSessions_sorted _ _ _, searchSessions_length _ _ _, ?_, ?_⟩
  · intro h
    simp [limitOf, h]
  · intro n hn hpos
    unfold limitOf
    rw [hn]
    dsimp only
    rw [if_neg (by omega)]

/-- Witness for C4: a concrete two-session run is pairwise sorted, a limit of
5 caps the output at 5, and no limit means 20. -/
theorem C4_witness :
    List.Pairwise resRel (searchSessions [some wOC, some wOC2] wOpts4 0) ∧
    limitOf wOpts4 = 5 ∧ limitOf noOpts = 20 ∧
    (searchSessions [some wOC, some wOC2] wOpts4 0).length ≤ 5 := by
  have h := C4_sorted_and_limited [some wOC, some wOC2] wOpts4 0
  have h20 := (C4_sorted_and_limited [] noOpts 0).2.2.1 rfl
  have h5 := h.2.2.2 5 rfl (by decide)
  exact ⟨h.1, h5, h20, h5 ▸ h.2.1⟩

/-- C4 counterexample: a supplied limit of 0 is falsy, so `limit || 20`
replaces it by 20 and the result list may exceed the supplied limit — here
it has 1 entry although the limit was 0. -/
theorem C4_cex_limit_zero :
    c4optsZero.limit = some 0 ∧
    (searchSessions [some wOC] c4optsZero 0).length = 1 := by
  exact ⟨rfl, by decide⟩

/-- C5: for a truthy (non-empty) query, every retained search result carries
its computed score as `relevance`, and that score is non-zero — a
zero-score session is excluded from the output entirely. -/
theorem C5_zero_score_excluded (fetched : List (Option OCSession))
    (options : SearchOptions) (now : Int) (q : String)
    (hq : options.query = some q) (hne : q ≠ "")
    (r : SearchResult) (h : r ∈ searchSessions fetched options now) :
    r.relevance = scoreRelevance r.toParsedSession q ∧
    scoreRelevance r.toParsedSession q ≠ 0 := by
  obtain ⟨raw, hmem, hre, hnemp, hmf, hg⟩ := mem_searchSessions h
  have hqt : queryTruthy options.query = true := by
    simp [queryTruthy, hq, hne]
  have hrel : relevanceOf options (parseOpenCodeSession raw)
      = scoreRelevance (parseOpenCodeSession raw) q := by
    unfold relevanceOf
    rw [hq]
    dsimp only
    rw [if_neg hne]
  rw [hqt] at hg
  subst hre
  refine ⟨hrel, ?_⟩
  intro h0
  rw [← hrel] at h0
  simp [h0] at hg

/-- Witness for C5: on the one-session run with query `fix`, the result's
relevance is its (non-zero) score 10. -/
theorem C5_witness :
    ({ toParsedSession := wOCParsed, relevance := 10 } : SearchResult).relevance
      = scoreRelevance wOCParsed "fix" ∧
    scoreRelevance wOCParsed "fix" ≠ 0 :=
  C5_zero_score_excluded [some wOC] wOpts5 0 "fix" rfl (by decide) _ (by decide)

/-- C8 (amended): the date filter accepts exactly the sessions whose
`endedAt` lies in the inclusive `[since, until]` window; a nonzero `days`
value behaves exactly like additionally supplying `since = now - days` (in
ms) conjunctively with the other filters; a `days` of 0 is falsy and imposes
no constraint (see the counterexample); and a session that ended ten days
ago is excluded by `days = 7`. -/
theorem C8_date_filter :
    (∀ (s : ParsedSession) (sinceOpt untilOpt : Option Int) (now : Int),
        matchesFilters s { query := none, days := none, since := sinceOpt, untilDate := untilOpt, tools := none, filePattern := none, limit := none } now = true
          ↔ (∀ t, sinceOpt = some t → t ≤ s.endedAt) ∧
            (∀ t, untilOpt = some t → s.endedAt ≤ t))
    ∧ (∀ (s : ParsedSession) (o : SearchOptions) (now : Int) (d : Nat), d ≠ 0 →
        (matchesFilters s { o with days := some d } now = true
          ↔ (matchesFilters s { o with days := none } now = true ∧
             matchesFilters s { query := none, days := none, since := some (now - (d : Int) * 24 * 60 * 60 * 1000), untilDate := none, tools := none, filePattern := none, limit := none } now = true)))
    ∧ (∀ (s : ParsedSession) (now : Int),
        s.endedAt = now - 10 * 24 * 60 * 60 * 1000 →
        matchesFilters s { query := none, days := some 7, since := none, untilDate := none, tools := none, filePattern := none, limit := none } now = false) := by
  refine ⟨?_, ?_, ?_⟩
  · intro s sinceOpt untilOpt now
    cases sinceOpt <;> cases untilOpt <;> simp [matchesFilters]
  · intro s o now d hd
    obtain ⟨q0, d0, s0, u0, t0, f0, l0⟩ := o
    simp only [matchesFilters, if_neg hd, Bool.and_eq_true]
    cases s0 <;> cases u0 <;> cases t0 <;> cases f0 <;> simp <;> tauto
  · intro s now hend
    simp [matchesFilters, hend]

/-- Witness for C8: the ten-days-ago session is rejected by `days = 7`, and
for the concrete nonzero `days = 1` the equivalence with an implicit `since`
holds. -/
theorem C8_witness :
    matchesFilters c8past { noOpts with days := some 7 } 0 = false ∧
    (matchesFilters c8sess { noOpts with days := some 1 } 0 = true
      ↔ (matchesFilters c8sess { noOpts with days := none } 0 = true ∧
         matchesFilters c8sess { query := none, days := none, since := some (0 - (1 : Int) * 24 * 60 * 60 * 1000), untilDate := none, tools := none, filePattern := none, limit := none } 0 = true)) ∧
    (matchesFilters c8sess { query := none, days := none, since := some (-2), untilDate := some 0, tools := none, filePattern := none, limit := none } 0 = true
      ↔ (∀ t, (some (-2) : Option Int) = some t → t ≤ c8sess.endedAt) ∧
        (∀ t, (some 0 : Option Int) = some t → c8sess.endedAt ≤ t)) :=
  ⟨C8_date_filter.2.2 c8past 0 (by decide),
   C8_date_filter.2.1 c8sess noOpts 0 1 (by decide),
   C8_date_filter.1 c8sess (some (-2)) (some 0) 0⟩

/-- C8 counterexample: a supplied `days` of 0 is falsy and skips the cutoff
check, so it is not equivalent to supplying the implicit
`since = now - 0 days`, which rejects this session. -/
theorem C8_cex_days_zero :
    matchesFilters c8sess { noOpts with days := some 0 } 0 = true ∧
    matchesFilters c8sess { noOpts with since := some (0 - (0 : Int) * 24 * 60 * 60 * 1000) } 0 = false := by
  exact ⟨by decide, by decide⟩

theorem termHits_mono (h1 h2 : List Char) (T : List (List Char)) (p : Nat)
    (himp : ∀ t, subSeg h1 t = true → subSeg h2 t = true) :
    termHits h1 T p ≤ termHits h2 T p := by
  induction T with
  | nil => simp [termHits]
  | cons t ts ih =>
    unfold termHits
    simp only [List.foldl_cons]
    rw [termHits_eq_foldl, termHits_eq_foldl]
    by_cases hc1 : subSeg h1 t = true
    · have hc2 := himp t hc1
      rw [if_pos hc1, if_pos hc2]
      omega
    · rw [if_neg hc1]
      by_cases hc2 : subSeg h2 t = true
      · rw [if_pos hc2]
        omega
      · rw [if_neg hc2]
        omega

/-- C9 (amended): appending text to a user message — in particular appending
an additional occurrence of a query term — never decreases the session's
relevance score (each message is counted once per term, so the added
occurrence can only add, never remove, matches).  Inserting an occurrence in
the middle of a message can destroy another term's match (see the
counterexample), which is the only amendment. -/
theorem C9_append_monotone (session : ParsedSession) (xs ys : List String)
    (m u q : String) (h : session.userMessages = xs ++ m :: ys) :
    scoreRelevance session q ≤
      scoreRelevance { session with userMessages := xs ++ (m ++ u) :: ys } q := by
  rw [scoreRelevance_eq, scoreRelevance_eq]
  by_cases hq : q = ""
  · simp [hq]
  · rw [if_neg hq, if_neg hq]
    dsimp only
    rw [h]
    have hmono : ((xs ++ m :: ys).map fun w => termHits (lower w) (splitWs (lower q)) 10).sum
        ≤ ((xs ++ (m ++ u) :: ys).map fun w => termHits (lower w) (splitWs (lower q)) 10).sum := by
      simp only [List.map_append, List.map_cons, List.sum_append, List.sum_cons]
      have hm : termHits (lower m) (splitWs (lower q)) 10
          ≤ termHits (lower (m ++ u)) (splitWs (lower q)) 10 := by
        refine termHits_mono _ _ _ _ ?_
        intro t ht
        rw [lower_append]
        exact subSeg_append_right _ _ _ ht
      omega
    omega

/-- Witness for C9: appending an exclamation mark (or any suffix) to the
matching message of `c9a` does not decrease its score. -/
theorem C9_witness :
    scoreRelevance c9a "a bcd" ≤
      scoreRelevance { c9a with userMessages := [] ++ ("a bcd" ++ "!") :: [] } "a bcd" :=
  C9_append_monotone c9a [] [] "a bcd" "!" "a bcd" (by decide)

/-- C9 counterexample: inserting an additional occurrence of the query term
`a` into the middle of the message `a bcd` (giving `a bacd`) destroys the
substring match of the other term `bcd`, and the score drops from 20 to 10 —
so the claim is false for an occurrence added mid-message. -/
theorem C9_cex_insertion_decreases :
    ("a bacd" : String) = "a b" ++ "a" ++ "cd" ∧
    ("a bcd" : String) = "a b" ++ "cd" ∧
    (lower "a") ∈ splitWs (lower "a bcd") ∧
    scoreRelevance c9b "a bcd" < scoreRelevance c9a "a bcd" := by
  exact ⟨by decide, by decide, by decide, by decide⟩
